import Mathlib

/-!
A verification development for the singlepp rank-correlation classification
engine.  The definitions below are shallow embeddings of the C++ sources:

* `Intersection.hpp` — `intersect_genes`;
* `process_features.hpp` — `intersect_features`, the two `subset_markers`
  overloads, and `unzip`;
* `classify_integrated.hpp` — the per-cell classification loop of
  `classify_integrated` and its parallel driver.

C++ `std::vector`s become `List`s, machine integers become `ℕ`/`ℚ`,
hash maps become functions into `Option`, and the floating-point scores
become `ℚ` (only their ordering matters for the properties proved here).
-/

namespace Singlepp

/-- Lexicographic "less or equal" on pairs, as used by `std::sort` on
`std::pair` (`operator<` compares `first` then `second`). -/
def lexLe {α β : Type} [LinearOrder α] [LinearOrder β] (a b : α × β) : Prop :=
  a.1 < b.1 ∨ (a.1 = b.1 ∧ a.2 ≤ b.2)

instance {α β : Type} [LinearOrder α] [LinearOrder β] :
    DecidableRel (@lexLe α β _ _) := fun a b => by
  unfold lexLe; exact inferInstance

instance {α β : Type} [LinearOrder α] [LinearOrder β] :
    IsTotal (α × β) lexLe := by
  constructor
  intro a b
  unfold lexLe
  rcases lt_trichotomy a.1 b.1 with h | h | h
  · exact Or.inl (Or.inl h)
  · rcases le_total a.2 b.2 with h2 | h2
    · exact Or.inl (Or.inr ⟨h, h2⟩)
    · exact Or.inr (Or.inr ⟨h.symm, h2⟩)
  · exact Or.inr (Or.inl h)

instance {α β : Type} [LinearOrder α] [LinearOrder β] :
    IsTrans (α × β) lexLe := by
  constructor
  intro a b c hab hbc
  unfold lexLe at *
  rcases hab with h | ⟨h, h2⟩
  · rcases hbc with h' | ⟨h', _⟩
    · exact Or.inl (h.trans h')
    · exact Or.inl (h' ▸ h)
  · rcases hbc with h' | ⟨h', h2'⟩
    · exact Or.inl (h ▸ h')
    · exact Or.inr ⟨h.trans h', h2.trans h2'⟩

/-! ## `Intersection.hpp`: `intersect_genes` -/

variable {Id : Type} [DecidableEq Id]

/-- The first loop of `intersect_genes` (`Intersection.hpp`): build a map
from each reference id to a row index, inserting only when the id is not
already present, so the *first* occurrence wins.  The argument is
`refIds.enum`, i.e. (row index, id) pairs in row order; scanning
left-to-right and keeping the earliest binding renders insert-if-absent. -/
def firstIndexFrom : List (ℕ × Id) → Id → Option ℕ
  | [], _ => none
  | (i, a) :: rest, x => if x = a then some i else firstIndexFrom rest x

/-- The second loop of `intersect_genes` (`Intersection.hpp`): scan the test
(row index, id) pairs in row order; when an id is found in the map, emit the
pair of row indices and erase the map entry (so a later duplicate test id is
not re-matched). -/
def intersectScan : List (ℕ × Id) → (Id → Option ℕ) → List (ℕ × ℕ)
  | [], _ => []
  | (i, x) :: rest, m =>
    match m x with
    | some j => (i, j) :: intersectScan rest (fun y => if y = x then none else m y)
    | none => intersectScan rest m

/-- `intersect_genes` from `Intersection.hpp`.  The array-pointer/length
arguments of the C++ signature are represented by the two lists. -/
def intersect_genes (testIds refIds : List Id) : List (ℕ × ℕ) :=
  intersectScan testIds.enum (firstIndexFrom refIds.enum)

theorem firstIndexFrom_mem {ps : List (ℕ × Id)} {x : Id} {i : ℕ}
    (h : firstIndexFrom ps x = some i) : (i, x) ∈ ps := by
  induction ps with
  | nil => simp [firstIndexFrom] at h
  | cons p rest ih =>
    obtain ⟨j, a⟩ := p
    by_cases hxa : x = a
    · simp only [firstIndexFrom, if_pos hxa] at h
      cases h
      exact hxa ▸ List.mem_cons_self _ _
    · simp only [firstIndexFrom, if_neg hxa] at h
      exact List.mem_cons_of_mem _ (ih h)

theorem firstIndexFrom_append_of_not_mem {pre ps : List (ℕ × Id)} {x : Id}
    (h : ∀ q ∈ pre, q.2 ≠ x) :
    firstIndexFrom (pre ++ ps) x = firstIndexFrom ps x := by
  induction pre with
  | nil => rfl
  | cons p rest ih =>
    obtain ⟨j, a⟩ := p
    have hxa : x ≠ a := fun hx => h (j, a) (List.mem_cons_self _ _) hx.symm
    simp only [List.cons_append, firstIndexFrom, if_neg hxa]
    exact ih fun q hq => h q (List.mem_cons_of_mem _ hq)

/-- Values looked up in `refIds.enum` identify their id: the map built from
an `enum` list is injective across ids. -/
theorem firstIndexFrom_enum_inj {l : List Id} {x y : Id} {j : ℕ}
    (hx : firstIndexFrom l.enum x = some j)
    (hy : firstIndexFrom l.enum y = some j) : x = y := by
  have hx' := List.mem_enum_iff_getElem?.mp (firstIndexFrom_mem hx)
  have hy' := List.mem_enum_iff_getElem?.mp (firstIndexFrom_mem hy)
  simp only at hx' hy'
  rw [hx'] at hy'
  exact Option.some_injective _ hy'

theorem intersectScan_fst_sublist :
    ∀ (ts : List (ℕ × Id)) (m : Id → Option ℕ),
      ((intersectScan ts m).map Prod.fst).Sublist (ts.map Prod.fst)
  | [], _ => List.Sublist.refl _
  | (i, x) :: rest, m => by
    simp only [intersectScan]
    cases m x with
    | some j =>
      simpa using List.Sublist.cons₂ i (intersectScan_fst_sublist rest _)
    | none =>
      simpa using List.Sublist.cons i (intersectScan_fst_sublist rest m)

/-- Every emitted reference row index is a value of the current map. -/
theorem intersectScan_snd_of_mem :
    ∀ (ts : List (ℕ × Id)) (m : Id → Option ℕ) (p : ℕ × ℕ),
      p ∈ intersectScan ts m → ∃ x, m x = some p.2
  | [], _, p => by simp [intersectScan]
  | (i, x) :: rest, m, p => by
    simp only [intersectScan]
    cases hmx : m x with
    | some j =>
      intro hp
      rcases List.mem_cons.mp hp with hp | hp
      · exact ⟨x, by simp [hp, hmx]⟩
      · obtain ⟨y, hy⟩ := intersectScan_snd_of_mem rest _ p hp
        by_cases hyx : y = x
        · simp [hyx] at hy
        · exact ⟨y, by simpa [hyx] using hy⟩
    | none =>
      intro hp
      exact intersectScan_snd_of_mem rest m p hp

theorem intersectScan_snd_nodup :
    ∀ (ts : List (ℕ × Id)) (m : Id → Option ℕ),
      (∀ x y j, m x = some j → m y = some j → x = y) →
      ((intersectScan ts m).map Prod.snd).Nodup
  | [], _, _ => by simp [intersectScan]
  | (i, x) :: rest, m, hinj => by
    simp only [intersectScan]
    cases hmx : m x with
    | some j =>
      have hinj' : ∀ a b k, (fun y => if y = x then none else m y) a = some k →
          (fun y => if y = x then none else m y) b = some k → a = b := by
        intro a b k ha hb
        by_cases hax : a = x
        · simp [hax] at ha
        · by_cases hbx : b = x
          · simp [hbx] at hb
          · simp only [if_neg hax] at ha
            simp only [if_neg hbx] at hb
            exact hinj a b k ha hb
      have hrest := intersectScan_snd_nodup rest _ hinj'
      simp only [List.map_cons, List.nodup_cons]
      refine ⟨?_, hrest⟩
      intro hj
      rcases List.mem_map.mp hj with ⟨p, hp, hpj⟩
      obtain ⟨y, hy⟩ := intersectScan_snd_of_mem rest _ p hp
      by_cases hyx : y = x
      · simp [hyx] at hy
      · simp only [if_neg hyx] at hy
        have : y = x := hinj y x p.2 hy (hpj ▸ hmx)
        exact hyx this
    | none =>
      exact intersectScan_snd_nodup rest m hinj

theorem intersectScan_nil :
    ∀ (ts : List (ℕ × Id)) (m : Id → Option ℕ),
      (∀ q ∈ ts, m q.2 = none) → intersectScan ts m = []
  | [], _, _ => rfl
  | (i, x) :: rest, m, h => by
    have hx : m x = none := h (i, x) (List.mem_cons_self _ _)
    simp only [intersectScan, hx]
    exact intersectScan_nil rest m fun q hq => h q (List.mem_cons_of_mem _ hq)

/-- Soundness of the scan: every emitted pair consists of the
first-occurrence test row of some id (relative to the full enumeration
`pre ++ suf`, given that ids of `pre` are no longer in the map) and a
reference row drawn from the initial first-occurrence reference map. -/
theorem intersectScan_sound (refIds : List Id) :
    ∀ (suf : List (ℕ × Id)) (m : Id → Option ℕ) (pre : List (ℕ × Id)),
      (∀ x j, m x = some j → firstIndexFrom refIds.enum x = some j) →
      (∀ q ∈ pre, m q.2 = none) →
      ∀ p ∈ intersectScan suf m,
        ∃ x, firstIndexFrom (pre ++ suf) x = some p.1 ∧
          firstIndexFrom refIds.enum x = some p.2
  | [], _, _, _, _ => by simp [intersectScan]
  | (i, x) :: rest, m, pre, hm, hpre => by
    simp only [intersectScan]
    cases hmx : m x with
    | some j =>
      intro p hp
      rcases List.mem_cons.mp hp with hp | hp
      · refine ⟨x, ?_, by simpa [hp] using hm x j hmx⟩
        have hnot : ∀ q ∈ pre, q.2 ≠ x := by
          intro q hq hqx
          have := hpre q hq
          rw [hqx] at this
          rw [this] at hmx
          exact Option.noConfusion hmx
        rw [firstIndexFrom_append_of_not_mem hnot]
        simp [firstIndexFrom, hp]
      · have hm' : ∀ a k, (fun y => if y = x then none else m y) a = some k →
            firstIndexFrom refIds.enum a = some k := by
          intro a k ha
          by_cases hax : a = x
          · simp [hax] at ha
          · simp only [if_neg hax] at ha
            exact hm a k ha
        have hpre' : ∀ q ∈ pre ++ [(i, x)],
            (fun y => if y = x then none else m y) q.2 = none := by
          intro q hq
          rcases List.mem_append.mp hq with hq | hq
          · by_cases hqx : q.2 = x
            · simp [hqx]
            · simpa [hqx] using hpre q hq
          · simp at hq
            simp [hq]
        have := intersectScan_sound refIds rest _ (pre ++ [(i, x)])
          (fun a k => hm' a k) hpre' p hp
        simpa using this
    | none =>
      intro p hp
      have hpre' : ∀ q ∈ pre ++ [(i, x)], m q.2 = none := by
        intro q hq
        rcases List.mem_append.mp hq with hq | hq
        · exact hpre q hq
        · simp at hq
          simpa [hq] using hmx
      have := intersectScan_sound refIds rest m (pre ++ [(i, x)]) hm hpre' p hp
      simpa using this

/-! ## `process_features.hpp`: `intersect_features` -/

/-- The map built by the first two loops of `intersect_features`
(`process_features.hpp`): `intersection[mat_id[i]] = (i, -1)` *overwrites*
any previous entry for the same id, so the surviving row for an id is its
*last* occurrence.  The argument is an `enum` list; later entries shadow
earlier ones. -/
def lastIndexFrom : List (ℕ × Id) → Id → Option ℕ
  | [], _ => none
  | (i, a) :: rest, x =>
    match lastIndexFrom rest x with
    | some j => some j
    | none => if x = a then some i else none

/-- The final value stored in the `intersect_features` hash map for a given
test id: the pair of its last test row and last matching reference row, or
nothing when the reference pass found no match (`second` stays `-1`). -/
def featureEntry (matIds refIds : List Id) (id : Id) : Option (ℕ × ℕ) :=
  match lastIndexFrom matIds.enum id, lastIndexFrom refIds.enum id with
  | some j, some k => some (j, k)
  | _, _ => none

/-- The collection loop of `intersect_features`: for each key of the hash
map (one per distinct test id), emit the stored pair when the reference
pass found a match (`second >= 0`).  The hash map's iteration order is
unspecified; we iterate the distinct ids in a fixed order, which is
harmless because the subsequent `std::sort` makes the result independent
of the iteration order (the first components are distinct). -/
def featurePairs (matIds refIds : List Id) : List (ℕ × ℕ) :=
  matIds.dedup.filterMap (featureEntry matIds refIds)

/-- `intersect_features` from `process_features.hpp`: build the hash map
keyed by test id (last occurrence wins), mark each key matched by the
reference pass (last matching reference row wins), collect the matched
pairs and `std::sort` them. -/
def intersect_features (matIds refIds : List Id) : List (ℕ × ℕ) :=
  List.insertionSort lexLe (featurePairs matIds refIds)

theorem lastIndexFrom_mem {ps : List (ℕ × Id)} {x : Id} {i : ℕ}
    (h : lastIndexFrom ps x = some i) : (i, x) ∈ ps := by
  induction ps with
  | nil => simp [lastIndexFrom] at h
  | cons p rest ih =>
    obtain ⟨j, a⟩ := p
    simp only [lastIndexFrom] at h
    cases hrest : lastIndexFrom rest x with
    | some j' =>
      rw [hrest] at h
      cases h
      exact List.mem_cons_of_mem _ (ih hrest)
    | none =>
      rw [hrest] at h
      by_cases hxa : x = a
      · rw [if_pos hxa] at h
        cases h
        exact hxa ▸ List.mem_cons_self _ _
      · rw [if_neg hxa] at h
        exact absurd h (Option.noConfusion ·)

theorem lastIndexFrom_enum_inj {l : List Id} {x y : Id} {j : ℕ}
    (hx : lastIndexFrom l.enum x = some j)
    (hy : lastIndexFrom l.enum y = some j) : x = y := by
  have hx' := List.mem_enum_iff_getElem?.mp (lastIndexFrom_mem hx)
  have hy' := List.mem_enum_iff_getElem?.mp (lastIndexFrom_mem hy)
  simp only at hx' hy'
  rw [hx'] at hy'
  exact Option.some_injective _ hy'

theorem featureEntry_eq_some {matIds refIds : List Id} {id : Id} {p : ℕ × ℕ}
    (h : featureEntry matIds refIds id = some p) :
    lastIndexFrom matIds.enum id = some p.1 ∧
      lastIndexFrom refIds.enum id = some p.2 := by
  unfold featureEntry at h
  cases hm : lastIndexFrom matIds.enum id with
  | none =>
    rw [hm] at h
    exact absurd h (Option.noConfusion ·)
  | some j =>
    cases hr : lastIndexFrom refIds.enum id with
    | none =>
      rw [hm, hr] at h
      exact absurd h (Option.noConfusion ·)
    | some k =>
      rw [hm, hr] at h
      cases h
      exact ⟨rfl, rfl⟩

/-- Unpack membership in the `Option.map` of a `featureEntry`. -/
theorem mem_map_featureEntry {matIds refIds : List Id} {f : ℕ × ℕ → ℕ}
    {id : Id} {b : ℕ} (hb : b ∈ (featureEntry matIds refIds id).map f) :
    ∃ p, featureEntry matIds refIds id = some p ∧ f p = b := by
  cases hfe : featureEntry matIds refIds id with
  | none =>
    rw [hfe] at hb
    simp at hb
  | some p =>
    rw [hfe] at hb
    simp only [Option.map_some', Option.mem_def, Option.some_inj] at hb
    exact ⟨p, rfl, hb⟩

theorem featurePairs_sound {matIds refIds : List Id} {p : ℕ × ℕ}
    (h : p ∈ featurePairs matIds refIds) :
    ∃ x, lastIndexFrom matIds.enum x = some p.1 ∧
      lastIndexFrom refIds.enum x = some p.2 := by
  rcases List.mem_filterMap.mp h with ⟨id, _, hid⟩
  exact ⟨id, featureEntry_eq_some hid⟩

theorem featurePairs_fst_nodup (matIds refIds : List Id) :
    ((featurePairs matIds refIds).map Prod.fst).Nodup := by
  unfold featurePairs
  rw [List.map_filterMap]
  refine (List.nodup_dedup matIds).filterMap ?_
  intro a a' b hb hb'
  obtain ⟨pa, hpa, hfa⟩ := mem_map_featureEntry hb
  obtain ⟨pa', hpa', hfa'⟩ := mem_map_featureEntry hb'
  have ha := (featureEntry_eq_some hpa).1
  have ha' := (featureEntry_eq_some hpa').1
  rw [hfa] at ha
  rw [hfa'] at ha'
  exact lastIndexFrom_enum_inj ha ha'

theorem featurePairs_snd_nodup (matIds refIds : List Id) :
    ((featurePairs matIds refIds).map Prod.snd).Nodup := by
  unfold featurePairs
  rw [List.map_filterMap]
  refine (List.nodup_dedup matIds).filterMap ?_
  intro a a' b hb hb'
  obtain ⟨pa, hpa, hfa⟩ := mem_map_featureEntry hb
  obtain ⟨pa', hpa', hfa'⟩ := mem_map_featureEntry hb'
  have ha := (featureEntry_eq_some hpa).2
  have ha' := (featureEntry_eq_some hpa').2
  rw [hfa] at ha
  rw [hfa'] at ha'
  exact lastIndexFrom_enum_inj ha ha'

theorem intersect_features_perm (matIds refIds : List Id) :
    List.Perm (intersect_features matIds refIds) (featurePairs matIds refIds) :=
  List.perm_insertionSort _ _

theorem intersect_features_fst_sorted (matIds refIds : List Id) :
    ((intersect_features matIds refIds).map Prod.fst).Sorted (· < ·) := by
  have hsorted : (intersect_features matIds refIds).Pairwise lexLe :=
    List.sorted_insertionSort _ _
  have hnodup : ((intersect_features matIds refIds).map Prod.fst).Nodup :=
    (((intersect_features_perm matIds refIds).map Prod.fst).nodup_iff).mpr
      (featurePairs_fst_nodup matIds refIds)
  have hne : (intersect_features matIds refIds).Pairwise
      (fun a b : ℕ × ℕ => a.1 ≠ b.1) := List.pairwise_map.mp hnodup
  refine List.pairwise_map.mpr ((hsorted.and hne).imp ?_)
  rintro a b ⟨hab, hne'⟩
  rcases hab with h | ⟨h, _⟩
  · exact h
  · exact absurd h hne'

theorem intersect_features_snd_nodup (matIds refIds : List Id) :
    ((intersect_features matIds refIds).map Prod.snd).Nodup :=
  (((intersect_features_perm matIds refIds).map Prod.snd).nodup_iff).mpr
    (featurePairs_snd_nodup matIds refIds)

/-! ## Claims C1 and C7 -/

/-- **C1, counterexample.**  The claim asserts that for test ids `[A,A,B]`
and ref ids `[A,B]` every intersection operation returns `[(0,0),(2,1)]`
with only first occurrences participating.  `intersect_features`
(`process_features.hpp`) instead returns `[(1,0),(2,1)]`: its hash-map
assignment overwrites, so the *second* occurrence of the duplicated test
id participates. -/
theorem c1_counterexample :
    intersect_features ([0, 0, 1] : List ℕ) [0, 1] = [(1, 0), (2, 1)] ∧
      intersect_features ([0, 0, 1] : List ℕ) [0, 1] ≠ [(0, 0), (2, 1)] := by
  constructor
  · rfl
  · intro h
    exact absurd h (by decide)

/-- **C1, amended.**  For `intersect_genes` only the first occurrence in
each input participates: every emitted pair is the first-occurrence test
row and the first-occurrence reference row of a common id.  For
`intersect_features` it is instead the *last* occurrence of a duplicated
test id and the *last* matching reference occurrence that participate. -/
theorem c1_first_occurrence_amended {Id : Type} [DecidableEq Id]
    (testIds refIds : List Id) :
    (∀ p ∈ intersect_genes testIds refIds, ∃ x,
        firstIndexFrom testIds.enum x = some p.1 ∧
        firstIndexFrom refIds.enum x = some p.2) ∧
    (∀ p ∈ intersect_features testIds refIds, ∃ x,
        lastIndexFrom testIds.enum x = some p.1 ∧
        lastIndexFrom refIds.enum x = some p.2) := by
  constructor
  · intro p hp
    have := intersectScan_sound refIds testIds.enum
      (firstIndexFrom refIds.enum) [] (fun _ _ h => h) (by simp) p hp
    simpa using this
  · intro p hp
    exact featurePairs_sound (((intersect_features_perm testIds refIds).mem_iff).mp hp)

/-- **C1, amended, witness.**  On test ids `[A,A,B] = [0,0,1]` and ref ids
`[A,B] = [0,1]`: `intersect_genes` emits `(0,0)` (first occurrences) and
`intersect_features` emits `(1,0)` (last test occurrence). -/
theorem c1_first_occurrence_amended_witness :
    (∃ x, firstIndexFrom ([0, 0, 1] : List ℕ).enum x = some 0 ∧
        firstIndexFrom ([0, 1] : List ℕ).enum x = some 0) ∧
    (∃ x, lastIndexFrom ([0, 0, 1] : List ℕ).enum x = some 1 ∧
        lastIndexFrom ([0, 1] : List ℕ).enum x = some 0) :=
  ⟨(c1_first_occurrence_amended [0, 0, 1] [0, 1]).1 (0, 0) (by decide),
   (c1_first_occurrence_amended [0, 0, 1] [0, 1]).2 (1, 0) (by decide)⟩

/-- If an id appears in the enumeration pairs, it is an element of the
underlying list. -/
theorem snd_mem_of_mem_enum {α : Type} {l : List α} {q : ℕ × α} (h : q ∈ l.enum) :
    q.2 ∈ l := by
  have := List.mem_enum_iff_getElem?.mp h
  exact List.getElem?_mem this

/-- **C7.**  For every pair of id arrays, both intersection operations
return pairs whose first components are strictly increasing, whose first
and second components each appear at most once, and both return the empty
list on disjoint id sets. -/
theorem c7_intersection_invariants {Id : Type} [DecidableEq Id]
    (testIds refIds : List Id) :
    ((intersect_genes testIds refIds).map Prod.fst).Sorted (· < ·) ∧
    ((intersect_genes testIds refIds).map Prod.fst).Nodup ∧
    ((intersect_genes testIds refIds).map Prod.snd).Nodup ∧
    ((intersect_features testIds refIds).map Prod.fst).Sorted (· < ·) ∧
    ((intersect_features testIds refIds).map Prod.fst).Nodup ∧
    ((intersect_features testIds refIds).map Prod.snd).Nodup ∧
    ((∀ x ∈ testIds, x ∉ refIds) →
      intersect_genes testIds refIds = [] ∧
        intersect_features testIds refIds = []) := by
  have hg_sorted : ((intersect_genes testIds refIds).map Prod.fst).Sorted (· < ·) := by
    have hsub := intersectScan_fst_sublist testIds.enum (firstIndexFrom refIds.enum)
    have hrange : (testIds.enum.map Prod.fst).Pairwise (· < ·) := by
      rw [List.enum_map_fst]
      exact List.pairwise_lt_range _
    exact hrange.sublist hsub
  have hf_sorted := intersect_features_fst_sorted testIds refIds
  refine ⟨hg_sorted, hg_sorted.nodup, ?_, hf_sorted, hf_sorted.nodup,
    intersect_features_snd_nodup testIds refIds, ?_⟩
  · exact intersectScan_snd_nodup testIds.enum _
      (fun x y j hx hy => firstIndexFrom_enum_inj hx hy)
  · intro hdisj
    constructor
    · refine intersectScan_nil testIds.enum _ ?_
      intro q hq
      cases hm : firstIndexFrom refIds.enum q.2 with
      | none => rfl
      | some j =>
        have hmem : q.2 ∈ refIds :=
          @snd_mem_of_mem_enum _ _ (j, q.2) (firstIndexFrom_mem hm)
        exact absurd hmem (hdisj q.2 (snd_mem_of_mem_enum hq))
    · unfold intersect_features
      have : featurePairs testIds refIds = [] := by
        refine List.filterMap_eq_nil_iff.mpr ?_
        intro a ha
        cases hfe : featureEntry testIds refIds a with
        | none => rfl
        | some p =>
          have hr := (featureEntry_eq_some hfe).2
          have hmem : a ∈ refIds := snd_mem_of_mem_enum (lastIndexFrom_mem hr)
          exact absurd hmem (hdisj a (List.mem_dedup.mp ha))
      rw [this]
      rfl

/-- **C7, witness.**  Concrete disjoint id arrays yield all invariants and
empty intersections. -/
theorem c7_intersection_invariants_witness :
    ((intersect_genes ([0, 1] : List ℕ) [2, 3]).map Prod.fst).Sorted (· < ·) ∧
    (intersect_genes ([0, 1] : List ℕ) [2, 3] = [] ∧
      intersect_features ([0, 1] : List ℕ) [2, 3] = []) :=
  ⟨(c7_intersection_invariants [0, 1] [2, 3]).1,
   (c7_intersection_invariants [0, 1] [2, 3]).2.2.2.2.2.2 (by decide)⟩

/-! ## `process_features.hpp`: the two `subset_markers` overloads -/

/-- `markers[i][j]`, with empty lists for out-of-range accesses (the C++
only ever indexes in range). -/
def entry (m : List (List (List ℕ))) (i j : ℕ) : List ℕ :=
  (m.getD i []).getD j []

/-- The inner filtering loop of the intersection-based `subset_markers`:
scan `current` left to right, keep elements present in `available`, and
stop once `top` elements have been kept (the loop condition
`replacement.size() < top` is rendered as the remaining capacity). -/
def filterTop (avail : List ℕ) : ℕ → List ℕ → List ℕ
  | _, [] => []
  | 0, _ => []
  | t + 1, x :: rest =>
    if x ∈ avail then x :: filterTop avail t rest
    else filterTop avail (t + 1) rest

/-- The first pass of the intersection-based `subset_markers`: every
off-diagonal marker list is replaced by its filtered top-`top` list;
diagonal lists are skipped (`if (i == j) continue`). -/
def filterMarkers (avail : List ℕ) (top : ℕ)
    (markers : List (List (List ℕ))) : List (List (List ℕ)) :=
  markers.mapIdx fun i row => row.mapIdx fun j current =>
    if i = j then current else filterTop avail top current

/-- All entries of the off-diagonal lists of a `Markers` structure, as one
list.  This renders both the `all_markers` hash set of the intersection
overload (which collects every kept off-diagonal marker) and the
`available` hash set of the single-feature-space overload (which collects
every truncated off-diagonal marker); only membership in it is ever
used. -/
def collectOffDiag (m : List (List (List ℕ))) : List ℕ :=
  ((m.mapIdx fun i row => row.mapIdx fun j current =>
    if i = j then ([] : List ℕ) else current).map List.flatten).flatten

/-- The compaction loop of the intersection-based `subset_markers`: keep
the intersection entries whose reference index is in `all_markers`; the
`counter` of the C++ loop is the position in the compacted vector. -/
def compactIntersection (intersection : List (ℕ × ℕ)) (allM : List ℕ) :
    List (ℕ × ℕ) :=
  intersection.filter fun p => decide (p.2 ∈ allM)

/-- The `mapping` hash map written during compaction:
`mapping[intersection[i].second] = counter` for each kept entry, so the
final value for an index is the *last* compacted position holding it (on
duplicate-free intersections the position is unique). -/
def mappingOf (compacted : List (ℕ × ℕ)) (x : ℕ) : Option ℕ :=
  (compacted.enum.filterMap fun ci =>
    if ci.2.2 = x then some ci.1 else none).getLast?

/-- The reindexing pass of the intersection-based `subset_markers`:
rewrite each surviving off-diagonal marker index through `mapping`.  The
C++ dereferences the `find` iterator without checking; the default `0`
here is proved unreachable (claim C10). -/
def reindexMarkers (mapping : ℕ → Option ℕ)
    (filtered : List (List (List ℕ))) : List (List (List ℕ)) :=
  filtered.mapIdx fun i row => row.mapIdx fun j current =>
    if i = j then current else current.map fun x => (mapping x).getD 0

/-- `subset_markers(intersection, markers, top)` from
`process_features.hpp` (intersection overload).  The C++ mutates
`intersection` and `markers` in place; the pure transform returns the
compacted intersection and the rewritten markers. -/
def subset_markers (intersection : List (ℕ × ℕ))
    (markers : List (List (List ℕ))) (top : ℕ) :
    List (ℕ × ℕ) × List (List (List ℕ)) :=
  let avail := intersection.map Prod.snd
  let filtered := filterMarkers avail top markers
  let compacted := compactIntersection intersection (collectOffDiag filtered)
  (compacted, reindexMarkers (mappingOf compacted) filtered)

/-- The truncation pass of the single-feature-space `subset_markers`
overload: `current.resize(min(current.size(), top))` on every
off-diagonal list. -/
def truncateMarkers (top : ℕ) (markers : List (List (List ℕ))) :
    List (List (List ℕ)) :=
  markers.mapIdx fun i row => row.mapIdx fun j current =>
    if i = j then current else current.take top

/-- Position lookup in the sorted `subset` vector, rendering the hash map
`mapping[subset[i]] = i` (on the duplicate-free `subset` the first
position is the only one). -/
def indexIn : List ℕ → ℕ → Option ℕ
  | [], _ => none
  | a :: rest, x =>
    if a = x then some 0 else (indexIn rest x).map (· + 1)

/-- `subset_markers(markers, top)` from `process_features.hpp`
(single-feature-space overload): truncate every off-diagonal list to
`top`, collect the union into a sorted duplicate-free `subset` vector,
and rewrite each marker to its position in `subset`.  Returns the
`subset` vector and the rewritten markers. -/
def subset_markers_single (markers : List (List (List ℕ))) (top : ℕ) :
    List ℕ × List (List (List ℕ)) :=
  let truncated := truncateMarkers top markers
  let subset :=
    List.insertionSort (· ≤ ·) (collectOffDiag truncated).dedup
  (subset, truncated.mapIdx fun i row => row.mapIdx fun j current =>
    if i = j then current else current.map fun x => (indexIn subset x).getD 0)

/-! ### Structural helpers for `mapIdx`-shaped transforms -/

theorem getElem?_mapIdx {α β : Type} (l : List α) (f : ℕ → α → β) (i : ℕ) :
    (l.mapIdx f)[i]? = (l[i]?).map (f i) := by
  induction l generalizing i f with
  | nil => simp
  | cons a t ih =>
    rw [List.mapIdx_cons]
    cases i with
    | zero => simp
    | succ n => simp [ih]

/-- Entry-wise description of a diagonal-preserving double `mapIdx`
transform whose off-diagonal action sends `[]` to `[]`. -/
theorem entry_mapIdx2 (f : ℕ → ℕ → List ℕ → List ℕ)
    (hf : ∀ i j, f i j [] = []) (m : List (List (List ℕ))) (i j : ℕ) :
    entry (m.mapIdx fun i' row => row.mapIdx fun j' c => f i' j' c) i j =
      f i j (entry m i j) := by
  simp only [entry, List.getD_eq_getElem?_getD]
  rw [getElem?_mapIdx]
  cases hrow : m[i]? with
  | none => simp [hf]
  | some row =>
    simp only [Option.map_some', Option.getD_some]
    rw [getElem?_mapIdx]
    cases hc : row[j]? with
    | none => simp [hf]
    | some c => simp

/-- Membership in an off-diagonal entry implies membership in the
collected off-diagonal union. -/
theorem mem_collectOffDiag {m : List (List (List ℕ))} {i j x : ℕ}
    (hij : i ≠ j) (hx : x ∈ entry m i j) : x ∈ collectOffDiag m := by
  simp only [entry, List.getD_eq_getElem?_getD] at hx
  rcases hrow : m[i]? with _ | row
  · rw [hrow] at hx
    simp at hx
  · rw [hrow] at hx
    simp only [Option.getD_some] at hx
    rcases hc : row[j]? with _ | c
    · rw [hc] at hx
      simp at hx
    · rw [hc] at hx
      simp only [Option.getD_some] at hx
      have hz : (m.mapIdx fun i' row' => row'.mapIdx fun j' c' =>
          if i' = j' then ([] : List ℕ) else c')[i]? =
          some (row.mapIdx fun j' c' => if i = j' then ([] : List ℕ) else c') := by
        rw [getElem?_mapIdx, hrow]
        rfl
      have hzc : (row.mapIdx fun j' c' =>
          if i = j' then ([] : List ℕ) else c')[j]? = some c := by
        rw [getElem?_mapIdx, hc]
        simp [if_neg hij]
      unfold collectOffDiag
      rw [List.mem_flatten]
      refine ⟨(row.mapIdx fun j' c' => if i = j' then ([] : List ℕ) else c').flatten,
        List.mem_map_of_mem _ (List.getElem?_mem hz), ?_⟩
      rw [List.mem_flatten]
      exact ⟨c, List.getElem?_mem hzc, hx⟩

theorem filterTop_nil (avail : List ℕ) (t : ℕ) : filterTop avail t [] = [] := by
  cases t <;> rfl

/-- The filtering loop is a *filtered top-k*: filter first, then cap. -/
theorem filterTop_eq_take_filter (avail : List ℕ) :
    ∀ (l : List ℕ) (t : ℕ),
      filterTop avail t l = (l.filter fun x => decide (x ∈ avail)).take t := by
  intro l
  induction l with
  | nil =>
    intro t
    rw [filterTop_nil]
    simp
  | cons x rest ih =>
    intro t
    cases t with
    | zero =>
      simp [filterTop]
    | succ n =>
      by_cases hx : x ∈ avail
      · simp [filterTop, if_pos hx, List.filter_cons, hx, ih]
      · simp [filterTop, if_neg hx, List.filter_cons, hx, ih]

theorem mem_of_mem_filterTop {avail l : List ℕ} {t x : ℕ}
    (h : x ∈ filterTop avail t l) : x ∈ avail ∧ x ∈ l := by
  rw [filterTop_eq_take_filter] at h
  have h' := List.mem_of_mem_take h
  have := List.mem_filter.mp h'
  exact ⟨of_decide_eq_true this.2, this.1⟩

/-- **C5.**  The intersection-based `subset_markers` performs a filtered
top-k on every off-diagonal marker list: it keeps, in order, the markers
present in the availability set (the second components of the
intersection) until `top` have been *kept*, which equals
filter-then-take, not truncate-then-filter; the second conjunct records
that `subset_markers` reindexes exactly these filtered lists. -/
theorem c5_filtered_top_k (intersection : List (ℕ × ℕ))
    (markers : List (List (List ℕ))) (top i j : ℕ) (hij : i ≠ j) :
    entry (filterMarkers (intersection.map Prod.snd) top markers) i j =
      ((entry markers i j).filter
        fun x => decide (x ∈ intersection.map Prod.snd)).take top ∧
    (subset_markers intersection markers top).2 =
      reindexMarkers
        (mappingOf (compactIntersection intersection
          (collectOffDiag
            (filterMarkers (intersection.map Prod.snd) top markers))))
        (filterMarkers (intersection.map Prod.snd) top markers) := by
  constructor
  · have h := entry_mapIdx2
      (fun i' j' c => if i' = j' then c
        else filterTop (intersection.map Prod.snd) top c)
      (fun i' j' => by
        by_cases hij' : i' = j'
        · simp [hij']
        · simp [hij', filterTop_nil])
      markers i j
    rw [show entry (filterMarkers (intersection.map Prod.snd) top markers) i j =
        entry (markers.mapIdx fun i' row => row.mapIdx fun j' c =>
          if i' = j' then c
          else filterTop (intersection.map Prod.snd) top c) i j from rfl]
    rw [h, if_neg hij, filterTop_eq_take_filter]
  · rfl

/-- **C5, witness.**  Marker list `[5,7,9]` for pair (0,1), availability
`{2,5,7}`, `top = 2`: the surviving list is `[5,7]`. -/
theorem c5_filtered_top_k_witness :
    (entry (filterMarkers
        (([(0, 2), (1, 5), (2, 7)] : List (ℕ × ℕ)).map Prod.snd) 2
        [[[], [5, 7, 9]], [[2, 3], []]]) 0 1 =
      ((entry [[[], [5, 7, 9]], [[2, 3], []]] 0 1).filter
        fun x => decide
          (x ∈ (([(0, 2), (1, 5), (2, 7)] : List (ℕ × ℕ)).map Prod.snd))).take 2) ∧
    entry (filterMarkers
        (([(0, 2), (1, 5), (2, 7)] : List (ℕ × ℕ)).map Prod.snd) 2
        [[[], [5, 7, 9]], [[2, 3], []]]) 0 1 = [5, 7] :=
  ⟨(c5_filtered_top_k [(0, 2), (1, 5), (2, 7)]
      [[[], [5, 7, 9]], [[2, 3], []]] 2 0 1 (by decide)).1,
   by decide⟩

/-! ### The compaction mapping -/

theorem mem_of_getLast?_eq {l : List ℕ} {a : ℕ} (h : l.getLast? = some a) :
    a ∈ l := by
  cases l with
  | nil => exact absurd h (Option.noConfusion ·)
  | cons b t =>
    rw [List.getLast?_eq_getLast_of_ne_nil (List.cons_ne_nil b t)] at h
    cases h
    exact List.getLast_mem _

theorem getLast?_eq_of_all_eq :
    ∀ (L : List ℕ) (c : ℕ), c ∈ L → (∀ z ∈ L, z = c) → L.getLast? = some c
  | [], c, h, _ => absurd h (List.not_mem_nil c)
  | [a], c, _, hall => by
    rw [hall a (List.mem_singleton_self a)]
    rfl
  | a :: b :: rest, c, _, hall => by
    rw [List.getLast?_cons_cons]
    refine getLast?_eq_of_all_eq (b :: rest) c ?_ ?_
    · rw [← hall b (List.mem_cons_of_mem _ (List.mem_cons_self _ _))]
      exact List.mem_cons_self _ _
    · exact fun z hz => hall z (List.mem_cons_of_mem _ hz)

/-- Every result of a `mappingOf` lookup is a position of the compacted
intersection holding the looked-up reference index. -/
theorem mappingOf_spec {compacted : List (ℕ × ℕ)} {x c : ℕ}
    (h : mappingOf compacted x = some c) :
    ∃ hc : c < compacted.length, (compacted.get ⟨c, hc⟩).2 = x := by
  have hmem := mem_of_getLast?_eq h
  rcases List.mem_filterMap.mp hmem with ⟨ci, hci, hcx⟩
  have : ci.2.2 = x ∧ ci.1 = c := by
    by_cases hx : ci.2.2 = x
    · rw [if_pos hx] at hcx
      exact ⟨hx, Option.some_injective _ hcx⟩
    · rw [if_neg hx] at hcx
      exact absurd hcx (Option.noConfusion ·)
  obtain ⟨hx2, hc1⟩ := this
  have henum := List.mem_enum_iff_getElem?.mp hci
  rw [hc1] at henum
  obtain ⟨hlt, hget⟩ := List.getElem?_eq_some.mp henum
  exact ⟨hlt, by rw [← hx2]; rw [← hget]; rfl⟩

/-- If some entry of the compacted intersection carries reference index
`x`, the mapping lookup for `x` succeeds. -/
theorem mappingOf_isSome_of_mem {compacted : List (ℕ × ℕ)} {q : ℕ × ℕ}
    (hq : q ∈ compacted) : ∃ c, mappingOf compacted q.2 = some c := by
  obtain ⟨n, hn, hget⟩ := List.getElem_of_mem hq
  have henum : (n, q) ∈ compacted.enum :=
    List.mem_enum_iff_getElem?.mpr (List.getElem?_eq_some.mpr ⟨hn, hget⟩)
  have hnL : n ∈ compacted.enum.filterMap fun ci =>
      if ci.2.2 = q.2 then some ci.1 else none :=
    List.mem_filterMap.mpr ⟨(n, q), henum, by simp⟩
  cases hL : (compacted.enum.filterMap fun ci =>
      if ci.2.2 = q.2 then some ci.1 else none).getLast? with
  | none =>
    rw [List.getLast?_eq_getLast_of_ne_nil (List.ne_nil_of_mem hnL)] at hL
    exact absurd hL (Option.noConfusion ·)
  | some c => exact ⟨c, hL⟩

/-- Shared argument for C4 and C10: any index in a filtered off-diagonal
marker list has a successful mapping lookup, landing below the compacted
length. -/
theorem subset_markers_mapping_total (intersection : List (ℕ × ℕ))
    (markers : List (List (List ℕ))) (top : ℕ) {i j x : ℕ} (hij : i ≠ j)
    (hx : x ∈ entry (filterMarkers (intersection.map Prod.snd) top markers) i j) :
    ∃ c, mappingOf (subset_markers intersection markers top).1 x = some c ∧
      c < (subset_markers intersection markers top).1.length := by
  have hres1 : (subset_markers intersection markers top).1 =
      compactIntersection intersection
        (collectOffDiag (filterMarkers (intersection.map Prod.snd) top markers)) :=
    rfl
  have hall : x ∈ collectOffDiag
      (filterMarkers (intersection.map Prod.snd) top markers) :=
    mem_collectOffDiag hij hx
  have hxentry : x ∈ filterTop (intersection.map Prod.snd) top (entry markers i j) := by
    have h := entry_mapIdx2
      (fun i' j' c => if i' = j' then c
        else filterTop (intersection.map Prod.snd) top c)
      (fun i' j' => by
        by_cases hij' : i' = j'
        · simp [hij']
        · simp [hij', filterTop_nil])
      markers i j
    rw [show entry (filterMarkers (intersection.map Prod.snd) top markers) i j =
        entry (markers.mapIdx fun i' row => row.mapIdx fun j' c =>
          if i' = j' then c
          else filterTop (intersection.map Prod.snd) top c) i j from rfl] at hx
    rw [h, if_neg hij] at hx
    exact hx
  have havail : x ∈ intersection.map Prod.snd :=
    (mem_of_mem_filterTop hxentry).1
  rcases List.mem_map.mp havail with ⟨p, hp, hpx⟩
  have hpc : p ∈ compactIntersection intersection
      (collectOffDiag (filterMarkers (intersection.map Prod.snd) top markers)) := by
    refine List.mem_filter.mpr ⟨hp, ?_⟩
    rw [hpx]
    exact decide_eq_true hall
  rw [hres1]
  obtain ⟨c, hc⟩ := mappingOf_isSome_of_mem hpc
  rw [hpx] at hc
  obtain ⟨hlt, _⟩ := mappingOf_spec hc
  exact ⟨c, hc, hlt⟩

/-- **C10.**  In the reindexing phase of the intersection-based
`subset_markers`, the mapping lookup of every surviving marker index
succeeds: every kept index is in the availability set and in
`all_markers`, so some compacted intersection entry carries it and the
unchecked iterator dereference of the C++ never reads the end
iterator. -/
theorem c10_mapping_lookup_total (intersection : List (ℕ × ℕ))
    (markers : List (List (List ℕ))) (top i j x : ℕ) (hij : i ≠ j)
    (hx : x ∈ entry (filterMarkers (intersection.map Prod.snd) top markers) i j) :
    (mappingOf (subset_markers intersection markers top).1 x).isSome := by
  obtain ⟨c, hc, _⟩ := subset_markers_mapping_total intersection markers top hij hx
  rw [hc]
  rfl

/-- **C10, witness.** -/
theorem c10_mapping_lookup_total_witness :
    (mappingOf (subset_markers [(0, 5)] [[[], [5]], [[5], []]] 1).1 5).isSome :=
  c10_mapping_lookup_total [(0, 5)] [[[], [5]], [[5], []]] 1 0 1 5
    (by decide) (by decide)

/-- **C4, counterexample.**  The claim asserts that after the
intersection-based `subset_markers` every second element of the surviving
intersection lies in `0..k-1`.  With intersection `[(0,5)]`, markers
`[[[],[5]],[[5],[]]]` and `top = 1`, the surviving intersection is
`[(0,5)]` (so `k = 1`), whose second element `5` is *not* `< 1`: the
compaction filters the intersection but never rewrites its second
elements. -/
theorem c4_counterexample :
    ¬ ∀ p ∈ (subset_markers [(0, 5)] [[[], [5]], [[5], []]] 1).1,
        p.2 < (subset_markers [(0, 5)] [[[], [5]], [[5], []]] 1).1.length := by
  decide

/-- **C4, amended.**  After the intersection-based `subset_markers`,
every index in an off-diagonal marker list lies in the compact space
`0..k-1` (`k` the number of surviving intersection entries), and the
marker index `c` refers to the `c`-th surviving intersection entry: the
mapping sends the second element of the `c`-th entry to `c` (given the
documented invariant that reference indices appear at most once in the
intersection).  The second elements themselves keep their original
reference-space values and are *not* remapped to `0..k-1`. -/
theorem c4_compact_space_amended (intersection : List (ℕ × ℕ))
    (markers : List (List (List ℕ))) (top : ℕ) :
    (∀ i j x, i ≠ j →
      x ∈ entry (subset_markers intersection markers top).2 i j →
      x < (subset_markers intersection markers top).1.length) ∧
    ((intersection.map Prod.snd).Nodup →
      ∀ c, ∀ hc : c < (subset_markers intersection markers top).1.length,
        mappingOf (subset_markers intersection markers top).1
          (((subset_markers intersection markers top).1.get ⟨c, hc⟩).2) =
          some c) := by
  constructor
  · intro i j x hij hx
    have hmap := entry_mapIdx2
      (fun i' j' c => if i' = j' then c
        else c.map fun y =>
          (mappingOf (subset_markers intersection markers top).1 y).getD 0)
      (fun i' j' => by
        by_cases hij' : i' = j'
        · simp [hij']
        · simp [hij'])
      (filterMarkers (intersection.map Prod.snd) top markers) i j
    rw [show entry (subset_markers intersection markers top).2 i j =
        entry ((filterMarkers (intersection.map Prod.snd) top markers).mapIdx
          fun i' row => row.mapIdx fun j' c =>
            if i' = j' then c
            else c.map fun y =>
              (mappingOf (subset_markers intersection markers top).1 y).getD 0)
          i j from rfl] at hx
    rw [hmap, if_neg hij] at hx
    rcases List.mem_map.mp hx with ⟨y, hy, hyx⟩
    obtain ⟨c, hc, hclt⟩ :=
      subset_markers_mapping_total intersection markers top hij hy
    rw [hc] at hyx
    simp only [Option.getD_some] at hyx
    rw [← hyx]
    exact hclt
  · intro hnodup c hc
    set compacted := (subset_markers intersection markers top).1 with hcompacted
    have hsnodup : (compacted.map Prod.snd).Nodup := by
      refine hnodup.sublist ?_
      rw [hcompacted]
      exact (List.filter_sublist intersection).map Prod.snd
    set y := (compacted.get ⟨c, hc⟩).2 with hy
    have henum : (c, compacted.get ⟨c, hc⟩) ∈ compacted.enum :=
      List.mem_enum_iff_getElem?.mpr
        (List.getElem?_eq_some.mpr ⟨hc, rfl⟩)
    have hcL : c ∈ compacted.enum.filterMap fun ci =>
        if ci.2.2 = y then some ci.1 else none :=
      List.mem_filterMap.mpr ⟨(c, compacted.get ⟨c, hc⟩), henum, by simp [hy]⟩
    refine getLast?_eq_of_all_eq _ c hcL ?_
    intro z hz
    rcases List.mem_filterMap.mp hz with ⟨ci, hci, hcz⟩
    have : ci.2.2 = y ∧ ci.1 = z := by
      by_cases hx : ci.2.2 = y
      · rw [if_pos hx] at hcz
        exact ⟨hx, Option.some_injective _ hcz⟩
      · rw [if_neg hx] at hcz
        exact absurd hcz (Option.noConfusion ·)
    obtain ⟨hxy, hz1⟩ := this
    have henz := List.mem_enum_iff_getElem?.mp hci
    rw [hz1] at henz
    obtain ⟨hzlt, hzget⟩ := List.getElem?_eq_some.mp henz
    have hgz : (compacted.map Prod.snd).get ⟨z, by simpa using hzlt⟩ = y := by
      simp only [List.get_eq_getElem, List.getElem_map]
      rw [hzget]
      exact hxy
    have hgc : (compacted.map Prod.snd).get ⟨c, by simpa using hc⟩ = y := by
      simp only [List.get_eq_getElem, List.getElem_map]
      rw [hy]
      rfl
    have := (List.Nodup.get_inj_iff hsnodup).mp (hgz.trans hgc.symm)
    exact congrArg Fin.val this

/-- **C4, amended, witness.** -/
theorem c4_compact_space_amended_witness :
    (0 : ℕ) ∈ entry (subset_markers [(0, 5)] [[[], [5]], [[5], []]] 1).2 0 1 ∧
    (0 : ℕ) < (subset_markers [(0, 5)] [[[], [5]], [[5], []]] 1).1.length ∧
    mappingOf (subset_markers [(0, 5)] [[[], [5]], [[5], []]] 1).1
      (((subset_markers [(0, 5)] [[[], [5]], [[5], []]] 1).1.get
        ⟨0, by decide⟩).2) = some 0 :=
  ⟨by decide,
   (c4_compact_space_amended [(0, 5)] [[[], [5]], [[5], []]] 1).1 0 1 0
     (by decide) (by decide),
   (c4_compact_space_amended [(0, 5)] [[[], [5]], [[5], []]] 1).2
     (by decide) 0 (by decide)⟩

/-! ### Diagonal frame: `setDiag` and `mapIdx` fusion -/

theorem mapIdx_mapIdx {α β γ : Type} (l : List α) (f : ℕ → α → β)
    (g : ℕ → β → γ) :
    (l.mapIdx f).mapIdx g = l.mapIdx fun i x => g i (f i x) := by
  apply List.ext_getElem?
  intro i
  rw [getElem?_mapIdx, getElem?_mapIdx, getElem?_mapIdx]
  cases l[i]? <;> rfl

theorem mapIdx_congr {α β : Type} {f g : ℕ → α → β}
    (h : ∀ i x, f i x = g i x) (l : List α) : l.mapIdx f = l.mapIdx g := by
  apply List.ext_getElem?
  intro i
  rw [getElem?_mapIdx, getElem?_mapIdx]
  cases l[i]? with
  | none => rfl
  | some a => simp [h]

/-- Fusion of two diagonal-aware double-`mapIdx` passes. -/
theorem mapIdx2_comp (f g : ℕ → ℕ → List ℕ → List ℕ)
    (m : List (List (List ℕ))) :
    ((m.mapIdx fun i row => row.mapIdx fun j c => f i j c).mapIdx
      fun i row => row.mapIdx fun j c => g i j c) =
      m.mapIdx fun i row => row.mapIdx fun j c => g i j (f i j c) := by
  rw [mapIdx_mapIdx]
  exact mapIdx_congr (fun i row => mapIdx_mapIdx row (f i) (g i)) m

/-- Replace each diagonal list `markers[i][i]` by `d i` (when the row is
long enough to have a diagonal position), leaving everything else
untouched. -/
def setDiag (markers : List (List (List ℕ))) (d : ℕ → List ℕ) :
    List (List (List ℕ)) :=
  markers.mapIdx fun i row => row.mapIdx fun j c => if i = j then d i else c

/-- Any diagonal-preserving off-diagonal transform commutes with
`setDiag`. -/
theorem offDiag_transform_setDiag (h : List ℕ → List ℕ)
    (m : List (List (List ℕ))) (d : ℕ → List ℕ) :
    ((setDiag m d).mapIdx fun i row => row.mapIdx fun j c =>
      if i = j then c else h c) =
      setDiag (m.mapIdx fun i row => row.mapIdx fun j c =>
        if i = j then c else h c) d := by
  unfold setDiag
  rw [mapIdx2_comp, mapIdx2_comp]
  refine mapIdx_congr (fun i row => ?_) m
  refine mapIdx_congr (fun j c => ?_) row
  by_cases hij : i = j
  · simp [hij]
  · simp [hij]

/-- The collected off-diagonal union ignores the diagonal lists. -/
theorem collectOffDiag_setDiag (m : List (List (List ℕ))) (d : ℕ → List ℕ) :
    collectOffDiag (setDiag m d) = collectOffDiag m := by
  unfold collectOffDiag setDiag
  rw [mapIdx2_comp]
  have : (m.mapIdx fun i row => row.mapIdx fun j c =>
      if i = j then ([] : List ℕ) else if i = j then d i else c) =
      m.mapIdx fun i row => row.mapIdx fun j c =>
        if i = j then ([] : List ℕ) else c := by
    refine mapIdx_congr (fun i row => ?_) m
    refine mapIdx_congr (fun j c => ?_) row
    by_cases hij : i = j
    · simp [hij]
    · simp [hij]
  rw [this]

/-- **C9.**  Both `subset_markers` overloads leave every diagonal marker
list unchanged, and the diagonal lists contribute nothing to any other
output: replacing all diagonals by arbitrary lists passes through both
overloads verbatim, leaving the compacted intersection, the sorted subset
vector and all off-diagonal outputs unchanged. -/
theorem c9_diagonal_frame (intersection : List (ℕ × ℕ))
    (markers : List (List (List ℕ))) (top : ℕ) (d : ℕ → List ℕ) :
    (∀ i, entry (subset_markers intersection markers top).2 i i =
      entry markers i i) ∧
    (∀ i, entry (subset_markers_single markers top).2 i i =
      entry markers i i) ∧
    subset_markers intersection (setDiag markers d) top =
      ((subset_markers intersection markers top).1,
        setDiag (subset_markers intersection markers top).2 d) ∧
    subset_markers_single (setDiag markers d) top =
      ((subset_markers_single markers top).1,
        setDiag (subset_markers_single markers top).2 d) := by
  refine ⟨?_, ?_, ?_, ?_⟩
  · intro i
    have h1 := entry_mapIdx2
      (fun i' j' c => if i' = j' then c
        else c.map fun y =>
          (mappingOf (subset_markers intersection markers top).1 y).getD 0)
      (fun i' j' => by by_cases hij' : i' = j' <;> simp [hij'])
      (filterMarkers (intersection.map Prod.snd) top markers) i i
    have h2 := entry_mapIdx2
      (fun i' j' c => if i' = j' then c
        else filterTop (intersection.map Prod.snd) top c)
      (fun i' j' => by by_cases hij' : i' = j' <;> simp [hij', filterTop_nil])
      markers i i
    rw [show entry (subset_markers intersection markers top).2 i i =
        entry ((filterMarkers (intersection.map Prod.snd) top markers).mapIdx
          fun i' row => row.mapIdx fun j' c =>
            if i' = j' then c
            else c.map fun y =>
              (mappingOf (subset_markers intersection markers top).1 y).getD 0)
          i i from rfl]
    rw [h1, if_pos rfl]
    rw [show entry (filterMarkers (intersection.map Prod.snd) top markers) i i =
        entry (markers.mapIdx fun i' row => row.mapIdx fun j' c =>
          if i' = j' then c
          else filterTop (intersection.map Prod.snd) top c) i i from rfl]
    rw [h2, if_pos rfl]
  · intro i
    have h1 := entry_mapIdx2
      (fun i' j' c => if i' = j' then c
        else c.map fun x => (indexIn (subset_markers_single markers top).1 x).getD 0)
      (fun i' j' => by by_cases hij' : i' = j' <;> simp [hij'])
      (truncateMarkers top markers) i i
    have h2 := entry_mapIdx2
      (fun i' j' c => if i' = j' then c else c.take top)
      (fun i' j' => by by_cases hij' : i' = j' <;> simp [hij'])
      markers i i
    rw [show entry (subset_markers_single markers top).2 i i =
        entry ((truncateMarkers top markers).mapIdx
          fun i' row => row.mapIdx fun j' c =>
            if i' = j' then c
            else c.map fun x =>
              (indexIn (subset_markers_single markers top).1 x).getD 0)
          i i from rfl]
    rw [h1, if_pos rfl]
    rw [show entry (truncateMarkers top markers) i i =
        entry (markers.mapIdx fun i' row => row.mapIdx fun j' c =>
          if i' = j' then c else c.take top) i i from rfl]
    rw [h2, if_pos rfl]
  · have hfilt : filterMarkers (intersection.map Prod.snd) top (setDiag markers d) =
        setDiag (filterMarkers (intersection.map Prod.snd) top markers) d :=
      offDiag_transform_setDiag (filterTop (intersection.map Prod.snd) top)
        markers d
    have hcoll : collectOffDiag
        (filterMarkers (intersection.map Prod.snd) top (setDiag markers d)) =
        collectOffDiag (filterMarkers (intersection.map Prod.snd) top markers) := by
      rw [hfilt, collectOffDiag_setDiag]
    have hcomp : compactIntersection intersection
        (collectOffDiag
          (filterMarkers (intersection.map Prod.snd) top (setDiag markers d))) =
        (subset_markers intersection markers top).1 := by
      rw [hcoll]
      rfl
    refine Prod.ext hcomp ?_
    show reindexMarkers
        (mappingOf (compactIntersection intersection
          (collectOffDiag
            (filterMarkers (intersection.map Prod.snd) top (setDiag markers d)))))
        (filterMarkers (intersection.map Prod.snd) top (setDiag markers d)) = _
    rw [hcomp, hfilt]
    exact offDiag_transform_setDiag
      (fun c => c.map fun y =>
        (mappingOf (subset_markers intersection markers top).1 y).getD 0)
      (filterMarkers (intersection.map Prod.snd) top markers) d
  · have htrunc : truncateMarkers top (setDiag markers d) =
        setDiag (truncateMarkers top markers) d :=
      offDiag_transform_setDiag (fun c => c.take top) markers d
    have hsub : List.insertionSort (· ≤ ·)
        (collectOffDiag (truncateMarkers top (setDiag markers d))).dedup =
        (subset_markers_single markers top).1 := by
      rw [htrunc, collectOffDiag_setDiag]
      rfl
    refine Prod.ext hsub ?_
    show (truncateMarkers top (setDiag markers d)).mapIdx
        (fun i row => row.mapIdx fun j current =>
          if i = j then current
          else current.map fun x =>
            (indexIn (List.insertionSort (· ≤ ·)
              (collectOffDiag (truncateMarkers top (setDiag markers d))).dedup) x).getD 0) = _
    rw [htrunc, collectOffDiag_setDiag]
    exact offDiag_transform_setDiag
      (fun c => c.map fun x =>
        (indexIn (List.insertionSort (· ≤ ·)
          (collectOffDiag (truncateMarkers top markers)).dedup) x).getD 0)
      (truncateMarkers top markers) d

/-! ### The single-feature-space overload: position lookup -/

theorem indexIn_getD_of_mem :
    ∀ (l : List ℕ) (x : ℕ), x ∈ l →
      ∃ p, indexIn l x = some p ∧ l.getD p 0 = x
  | [], x, h => absurd h (List.not_mem_nil x)
  | a :: rest, x, h => by
    by_cases hax : a = x
    · exact ⟨0, by simp [indexIn, hax], hax⟩
    · have hx : x ∈ rest := by
        rcases List.mem_cons.mp h with h | h
        · exact absurd h.symm hax
        · exact h
      obtain ⟨p, hp, hg⟩ := indexIn_getD_of_mem rest x hx
      exact ⟨p + 1, by simp [indexIn, hax, hp], by simpa using hg⟩

/-- **C8.**  The single-feature-space `subset_markers` overload applies no
availability filtering: every off-diagonal marker list is truncated to its
first `min(top, length)` entries, and indexing the returned sorted subset
vector by each rewritten marker index recovers exactly those entries. -/
theorem c8_single_truncate_recover (markers : List (List (List ℕ)))
    (top i j : ℕ) (hij : i ≠ j) :
    ((entry (subset_markers_single markers top).2 i j).map
        fun p => (subset_markers_single markers top).1.getD p 0) =
      (entry markers i j).take top ∧
    (entry (subset_markers_single markers top).2 i j).length =
      min top (entry markers i j).length := by
  have h1 := entry_mapIdx2
    (fun i' j' c => if i' = j' then c
      else c.map fun x => (indexIn (subset_markers_single markers top).1 x).getD 0)
    (fun i' j' => by by_cases hij' : i' = j' <;> simp [hij'])
    (truncateMarkers top markers) i j
  have h2 := entry_mapIdx2
    (fun i' j' c => if i' = j' then c else c.take top)
    (fun i' j' => by by_cases hij' : i' = j' <;> simp [hij'])
    markers i j
  have hres : entry (subset_markers_single markers top).2 i j =
      (entry (truncateMarkers top markers) i j).map
        fun x => (indexIn (subset_markers_single markers top).1 x).getD 0 := by
    rw [show entry (subset_markers_single markers top).2 i j =
        entry ((truncateMarkers top markers).mapIdx
          fun i' row => row.mapIdx fun j' c =>
            if i' = j' then c
            else c.map fun x =>
              (indexIn (subset_markers_single markers top).1 x).getD 0)
          i j from rfl]
    rw [h1, if_neg hij]
  have htrunc : entry (truncateMarkers top markers) i j =
      (entry markers i j).take top := by
    rw [show entry (truncateMarkers top markers) i j =
        entry (markers.mapIdx fun i' row => row.mapIdx fun j' c =>
          if i' = j' then c else c.take top) i j from rfl]
    rw [h2, if_neg hij]
  constructor
  · rw [hres, htrunc, List.map_map]
    have hid : ∀ x ∈ (entry markers i j).take top,
        ((fun p => (subset_markers_single markers top).1.getD p 0) ∘
          fun x => (indexIn (subset_markers_single markers top).1 x).getD 0) x = x := by
      intro x hx
      have hxt : x ∈ entry (truncateMarkers top markers) i j := htrunc ▸ hx
      have hcoll : x ∈ collectOffDiag (truncateMarkers top markers) :=
        mem_collectOffDiag hij hxt
      have hsub : x ∈ (subset_markers_single markers top).1 := by
        show x ∈ List.insertionSort (· ≤ ·)
          (collectOffDiag (truncateMarkers top markers)).dedup
        rw [(List.perm_insertionSort _ _).mem_iff]
        exact List.mem_dedup.mpr hcoll
      obtain ⟨p, hp, hg⟩ :=
        indexIn_getD_of_mem (subset_markers_single markers top).1 x hsub
      simp only [Function.comp_apply, hp, Option.getD_some]
      exact hg
    rw [List.map_congr_left hid]
    exact List.map_id _
  · rw [hres, htrunc, List.length_map, List.length_take]

/-- **C8, witness.**  With `top = 2` and marker list `[5,7,9]` for pair
(0,1): the rewritten list decodes through the subset vector to `[5,7]`. -/
theorem c8_single_truncate_recover_witness :
    ((entry (subset_markers_single [[[], [5, 7, 9]], [[2, 3], []]] 2).2 0 1).map
        fun p => (subset_markers_single [[[], [5, 7, 9]], [[2, 3], []]] 2).1.getD p 0) =
      (entry [[[], [5, 7, 9]], [[2, 3], []]] 0 1).take 2 :=
  (c8_single_truncate_recover [[[], [5, 7, 9]], [[2, 3], []]] 2 0 1 (by decide)).1

/-! ## `classify_integrated.hpp`: the per-cell classification loop -/

/-- The running best/second-best/best-reference loop of
`classify_integrated`: each reference's score replaces the best only
under strict `>` (then the old best becomes the second best), otherwise
it replaces the second best only under strict `>`.  The accumulator is
`(best_score, next_best, best_ref)` and `r` is the index of the next
reference. -/
def selectGo : List ℚ → ℕ → ℚ × ℚ × ℕ → ℚ × ℚ × ℕ
  | [], _, acc => acc
  | s :: rest, r, (bs, nb, br) =>
    if s > bs then selectGo rest (r + 1) (s, bs, r)
    else if s > nb then selectGo rest (r + 1) (bs, s, br)
    else selectGo rest (r + 1) (bs, nb, br)

/-- The selection fold over the per-reference scores of one cell, with
the initial values `best_score = next_best = -1000` and `best_ref = 0` of
`classify_integrated`. -/
def selectBest (scores : List ℚ) : ℚ × ℚ × ℕ :=
  selectGo scores 0 (-1000, -1000, 0)

/-- The parts of the trained model read by `classify_integrated`.  (Its
type `TrainedIntegrated` lives in `train_integrated.hpp`, outside the
given sources; the fields follow the accesses made by
`classify_integrated.hpp`.)  Per-profile ranked vectors pair a rank value
with a row index. -/
structure TrainedIntegrated where
  nref : ℕ
  markers : ℕ → ℕ → List ℕ
  check_availability : ℕ → Bool
  available : ℕ → ℕ → Bool
  ranked : ℕ → ℕ → List (List (ℕ × ℕ))

/-- Modelled from the spec: the scoring helpers used by
`classify_integrated` live in `scaled_ranks.hpp` and
`compute_scores.hpp`, which are not among the given sources
(`RankRemapper::remap`, `scaled_ranks`, `distance_to_correlation`,
`correlations_to_scores`).  The claims below hold for *every* choice of
these functions, so they are parameters of the embedding; a remapper is
represented by the list of indices `add`ed to it, in order. -/
structure ScoringSubs where
  remapTest : List ℕ → List (ℚ × ℕ) → List (ℚ × ℕ)
  remapRef : List ℕ → List (ℕ × ℕ) → List (ℕ × ℕ)
  scaledTest : List (ℚ × ℕ) → List ℚ
  scaledRef : List (ℕ × ℕ) → List ℚ
  dist2cor : List ℚ → List ℚ → ℚ
  cor2score : List ℚ → ℚ → ℚ

/-- The miniverse of one cell: the union (as a hash set) of the marker
lists of the labels assigned to the cell by each reference, copied out
and sorted. -/
def miniverseOf (T : TrainedIntegrated) (assigned : ℕ → ℕ → ℕ) (i : ℕ) :
    List ℕ :=
  List.insertionSort (· ≤ ·)
    (((List.range T.nref).foldl
      (fun acc r => acc ++ T.markers r (assigned r i)) []).dedup)

/-- The remapper contents for reference `r`: when the reference carries
an availability set, only available miniverse entries are `add`ed
(`intersect_mapping`); otherwise the whole miniverse is (the cached
`direct_mapping`, whose reuse across references is an optimization with
no observable effect). -/
def mappingFor (T : TrainedIntegrated) (r : ℕ) (mini : List ℕ) : List ℕ :=
  if T.check_availability r then mini.filter (fun c => T.available r c)
  else mini

/-- The cell's full ranked profile: the fetched expression values at the
miniverse rows, sorted by (value, row index) as `std::sort` on pairs
does.  `col i u` is the value of universe row `u` in cell `i`. -/
def testRankedFull (col : ℕ → ℕ → ℚ) (i : ℕ) (mini : List ℕ) :
    List (ℚ × ℕ) :=
  List.insertionSort lexLe (mini.map fun u => (col i u, u))

/-- The score of reference `r` for cell `i`: remap and scale the cell
profile, correlate against each remapped-and-scaled profile of the
assigned label, and aggregate through the quantile. -/
def scoreFor (T : TrainedIntegrated) (S : ScoringSubs)
    (assigned : ℕ → ℕ → ℕ) (quantile : ℚ) (i r : ℕ)
    (mini : List ℕ) (trf : List (ℚ × ℕ)) : ℚ :=
  let mapping := mappingFor T r mini
  let testScaled := S.scaledTest (S.remapTest mapping trf)
  let cors := (T.ranked r (assigned r i)).map fun prof =>
    S.dist2cor testScaled (S.scaledRef (S.remapRef mapping prof))
  S.cor2score cors quantile

/-- All per-reference scores of cell `i`, in reference order. -/
def cellScores (T : TrainedIntegrated) (S : ScoringSubs)
    (assigned : ℕ → ℕ → ℕ) (col : ℕ → ℕ → ℚ) (quantile : ℚ) (i : ℕ) :
    List ℚ :=
  (List.range T.nref).map fun r =>
    scoreFor T S assigned quantile i r (miniverseOf T assigned i)
      (testRankedFull col i (miniverseOf T assigned i))

/-- Which output buffers the caller supplied (`NULL` pointers are
skipped). -/
structure BufferFlags where
  bestOn : Bool
  scoreOn : ℕ → Bool
  deltaOn : Bool

/-- What `classify_integrated` writes for one cell: the best reference
(if requested), per-reference scores (each if requested), and the delta
(if requested), where the written delta is either a value or the NaN
sentinel (`none`). -/
structure CellOutput where
  best : Option ℕ
  scores : List (Option ℚ)
  delta : Option (Option ℚ)
  deriving DecidableEq

/-- The body of the per-cell loop of `classify_integrated` for cell `i`:
compute the per-reference scores, fold the best/second-best selection,
and write the requested outputs; with a single reference the delta is
the NaN sentinel. -/
def perCell (T : TrainedIntegrated) (S : ScoringSubs)
    (assigned : ℕ → ℕ → ℕ) (col : ℕ → ℕ → ℚ) (quantile : ℚ)
    (flags : BufferFlags) (i : ℕ) : CellOutput :=
  let scores := cellScores T S assigned col quantile i
  let res := selectBest scores
  { best := if flags.bestOn then some res.2.2 else none
    scores := scores.enum.map fun rs =>
      if flags.scoreOn rs.1 then some rs.2 else none
    delta := if flags.deltaOn then
        some (if 1 < T.nref then some (res.1 - res.2.1) else none)
      else none }

/-- Modelled from the spec: `tatami::parallelize` (not among the given
sources) hands each worker a contiguous range `[start, start + len)` of
test cells; each worker runs the loop body on exactly its own cells and
writes at disjoint indices.  Buffers are modelled as functions from cell
index to the optionally written output; since all writes to a cell store
the same pure value, any interleaving yields this result. -/
def writeRange (T : TrainedIntegrated) (S : ScoringSubs)
    (assigned : ℕ → ℕ → ℕ) (col : ℕ → ℕ → ℚ) (quantile : ℚ)
    (flags : BufferFlags) (rg : ℕ × ℕ) (buf : ℕ → Option CellOutput) :
    ℕ → Option CellOutput :=
  fun i => if rg.1 ≤ i ∧ i < rg.1 + rg.2
    then some (perCell T S assigned col quantile flags i) else buf i

/-- Run `classify_integrated` over a list of worker ranges. -/
def runPartition (T : TrainedIntegrated) (S : ScoringSubs)
    (assigned : ℕ → ℕ → ℕ) (col : ℕ → ℕ → ℚ) (quantile : ℚ)
    (flags : BufferFlags) (ranges : List (ℕ × ℕ)) :
    ℕ → Option CellOutput :=
  ranges.foldl
    (fun buf rg => writeRange T S assigned col quantile flags rg buf)
    (fun _ => none)

/-- Full characterisation of the selection loop: either nothing beat the
incoming best (then the best and its reference survive unchanged), or the
final best is the score of the *first* position achieving the running
maximum (strictly greater than everything before it). -/
theorem selectGo_spec :
    ∀ (scores : List ℚ) (r : ℕ) (bs nb : ℚ) (br : ℕ),
      ((selectGo scores r (bs, nb, br)).1 = bs ∧
        (selectGo scores r (bs, nb, br)).2.2 = br ∧
        ∀ s ∈ scores, s ≤ bs) ∨
      (∃ k, k < scores.length ∧
        (selectGo scores r (bs, nb, br)).2.2 = r + k ∧
        (selectGo scores r (bs, nb, br)).1 = scores.getD k 0 ∧
        bs < (selectGo scores r (bs, nb, br)).1 ∧
        (∀ s ∈ scores, s ≤ (selectGo scores r (bs, nb, br)).1) ∧
        ∀ j, j < k → scores.getD j 0 < (selectGo scores r (bs, nb, br)).1)
  | [], r, bs, nb, br => Or.inl ⟨rfl, rfl, by simp⟩
  | s :: rest, r, bs, nb, br => by
    simp only [selectGo]
    by_cases h1 : s > bs
    · rw [if_pos h1]
      rcases selectGo_spec rest (r + 1) s bs r with
        ⟨he1, he2, hall⟩ | ⟨k, hk, h2, h3, h4, h5, h6⟩
      · refine Or.inr ⟨0, by simp, by simpa using he2, by simpa using he1, ?_, ?_, ?_⟩
        · rw [he1]; exact h1
        · intro x hx
          rcases List.mem_cons.mp hx with hx | hx
          · rw [he1, hx]
          · rw [he1]; exact hall x hx
        · intro j hj
          exact absurd hj (Nat.not_lt_zero j)
      · refine Or.inr ⟨k + 1, by simpa using hk, ?_, by simpa using h3, ?_, ?_, ?_⟩
        · rw [h2]; omega
        · exact h1.trans h4
        · intro x hx
          rcases List.mem_cons.mp hx with hx | hx
          · rw [hx]; exact le_of_lt h4
          · exact h5 x hx
        · intro j hj
          cases j with
          | zero => simpa using h4
          | succ n =>
            have := h6 n (by omega)
            simpa using this
    · rw [if_neg h1]
      have hs : s ≤ bs := not_lt.mp h1
      have key : ∀ nb' : ℚ,
          ((selectGo rest (r + 1) (bs, nb', br)).1 = bs ∧
            (selectGo rest (r + 1) (bs, nb', br)).2.2 = br ∧
            ∀ x ∈ s :: rest, x ≤ bs) ∨
          (∃ k, k < (s :: rest).length ∧
            (selectGo rest (r + 1) (bs, nb', br)).2.2 = r + k ∧
            (selectGo rest (r + 1) (bs, nb', br)).1 = (s :: rest).getD k 0 ∧
            bs < (selectGo rest (r + 1) (bs, nb', br)).1 ∧
            (∀ x ∈ s :: rest, x ≤ (selectGo rest (r + 1) (bs, nb', br)).1) ∧
            ∀ j, j < k →
              (s :: rest).getD j 0 < (selectGo rest (r + 1) (bs, nb', br)).1) := by
        intro nb'
        rcases selectGo_spec rest (r + 1) bs nb' br with
          ⟨he1, he2, hall⟩ | ⟨k, hk, h2, h3, h4, h5, h6⟩
        · refine Or.inl ⟨he1, he2, ?_⟩
          intro x hx
          rcases List.mem_cons.mp hx with hx | hx
          · rw [hx]; exact hs
          · exact hall x hx
        · refine Or.inr ⟨k + 1, by simpa using hk, ?_, by simpa using h3, h4, ?_, ?_⟩
          · rw [h2]; omega
          · intro x hx
            rcases List.mem_cons.mp hx with hx | hx
            · rw [hx]; exact hs.trans (le_of_lt h4)
            · exact h5 x hx
          · intro j hj
            cases j with
            | zero => simpa using hs.trans_lt h4
            | succ n =>
              have := h6 n (by omega)
              simpa using this
      by_cases h2 : s > nb
      · rw [if_pos h2]; exact key s
      · rw [if_neg h2]; exact key nb

/-- **C3.**  In `classify_integrated`, for every cell the recorded best
reference is the *first* reference achieving the maximal score: all
earlier references score strictly less (strict `>` comparisons only), so
exact ties are won by the lowest reference index.  The bound hypothesis
is modelled from the spec: scores are quantiles of correlations, which
lie in `[-1, 1]`, hence above the `-1000` initialisation. -/
theorem c3_best_ref_first_wins (scores : List ℚ) (hne : scores ≠ [])
    (hbound : ∀ s ∈ scores, -1 ≤ s ∧ s ≤ 1) :
    (selectBest scores).2.2 < scores.length ∧
    scores.getD (selectBest scores).2.2 0 = (selectBest scores).1 ∧
    (∀ s ∈ scores, s ≤ (selectBest scores).1) ∧
    ∀ j, j < (selectBest scores).2.2 →
      scores.getD j 0 < (selectBest scores).1 := by
  rcases selectGo_spec scores 0 (-1000) (-1000) 0 with
    ⟨_, _, hall⟩ | ⟨k, hk, h2, h3, h4, h5, h6⟩
  · obtain ⟨s₀, hs₀⟩ := List.exists_mem_of_ne_nil scores hne
    have hb := (hbound s₀ hs₀).1
    have := hall s₀ hs₀
    linarith
  · have hbr : (selectBest scores).2.2 = k := by simpa [selectBest] using h2
    rw [hbr]
    exact ⟨hk, Eq.symm (show (selectBest scores).1 = scores.getD k 0 from h3),
      h5, h6⟩

/-- **C3, witness.**  With scores `[0, 0]` the two references tie exactly
and the first one (index 0, scoring no less than every reference and
strictly more than none before it) is recorded. -/
theorem c3_best_ref_first_wins_witness :
    (selectBest [0, 0]).2.2 < 2 ∧
    ([0, 0] : List ℚ).getD (selectBest [0, 0]).2.2 0 = (selectBest [0, 0]).1 ∧
    (∀ s ∈ ([0, 0] : List ℚ), s ≤ (selectBest [0, 0]).1) ∧
    ∀ j, j < (selectBest [0, 0]).2.2 →
      ([0, 0] : List ℚ).getD j 0 < (selectBest [0, 0]).1 :=
  c3_best_ref_first_wins [0, 0] (by decide) (by norm_num)

/-- **C6.**  With exactly one reference and a supplied delta buffer,
`classify_integrated` writes the NaN sentinel for every cell regardless
of the computed scores; with more than one reference it writes the best
score minus the second-best score. -/
theorem c6_single_reference_delta_nan (T : TrainedIntegrated)
    (S : ScoringSubs) (assigned : ℕ → ℕ → ℕ) (col : ℕ → ℕ → ℚ)
    (quantile : ℚ) (flags : BufferFlags) (i : ℕ)
    (hdelta : flags.deltaOn = true) :
    (T.nref = 1 →
      (perCell T S assigned col quantile flags i).delta = some none) ∧
    (1 < T.nref →
      (perCell T S assigned col quantile flags i).delta =
        some (some ((selectBest (cellScores T S assigned col quantile i)).1 -
          (selectBest (cellScores T S assigned col quantile i)).2.1))) := by
  constructor
  · intro h1
    simp [perCell, hdelta, h1]
  · intro h2
    simp [perCell, hdelta, h2]

/-- A one-reference trained model with trivial contents, for witnesses. -/
def oneRefTrained : TrainedIntegrated where
  nref := 1
  markers := fun _ _ => []
  check_availability := fun _ => false
  available := fun _ _ => false
  ranked := fun _ _ => []

/-- A two-reference trained model with trivial contents, for witnesses. -/
def twoRefTrained : TrainedIntegrated where
  nref := 2
  markers := fun _ _ => [0]
  check_availability := fun r => r = 1
  available := fun _ c => c = 0
  ranked := fun _ _ => [[(0, 0)]]

/-- Trivial scoring helpers, for witnesses. -/
def trivialSubs : ScoringSubs where
  remapTest := fun _ v => v
  remapRef := fun _ v => v
  scaledTest := fun _ => []
  scaledRef := fun _ => []
  dist2cor := fun _ _ => 0
  cor2score := fun _ _ => 0

/-- All output buffers supplied, for witnesses. -/
def allOnFlags : BufferFlags where
  bestOn := true
  scoreOn := fun _ => true
  deltaOn := true

/-- **C6, witness.**  One reference: the delta written is the NaN
sentinel; two references: it is best minus second best. -/
theorem c6_single_reference_delta_nan_witness :
    (perCell oneRefTrained trivialSubs (fun _ _ => 0) (fun _ _ => 0)
      (8 / 10) allOnFlags 0).delta = some none ∧
    (perCell twoRefTrained trivialSubs (fun _ _ => 0) (fun _ _ => 0)
      (8 / 10) allOnFlags 0).delta =
      some (some ((selectBest (cellScores twoRefTrained trivialSubs
          (fun _ _ => 0) (fun _ _ => 0) (8 / 10) 0)).1 -
        (selectBest (cellScores twoRefTrained trivialSubs
          (fun _ _ => 0) (fun _ _ => 0) (8 / 10) 0)).2.1)) :=
  ⟨(c6_single_reference_delta_nan oneRefTrained trivialSubs
      (fun _ _ => 0) (fun _ _ => 0) (8 / 10) allOnFlags 0 rfl).1 rfl,
   (c6_single_reference_delta_nan twoRefTrained trivialSubs
      (fun _ _ => 0) (fun _ _ => 0) (8 / 10) allOnFlags 0 rfl).2 (by decide)⟩

/-- Once a buffer cell holds the (unique) value the loop body computes
for it, later range writes keep it. -/
theorem runWrites_preserve (T : TrainedIntegrated) (S : ScoringSubs)
    (assigned : ℕ → ℕ → ℕ) (col : ℕ → ℕ → ℚ) (quantile : ℚ)
    (flags : BufferFlags) (i : ℕ) :
    ∀ (ranges : List (ℕ × ℕ)) (buf : ℕ → Option CellOutput),
      buf i = some (perCell T S assigned col quantile flags i) →
      ranges.foldl
        (fun b rg => writeRange T S assigned col quantile flags rg b) buf i =
        some (perCell T S assigned col quantile flags i)
  | [], buf, h => h
  | rg :: rest, buf, h => by
    rw [List.foldl_cons]
    refine runWrites_preserve T S assigned col quantile flags i rest _ ?_
    unfold writeRange
    by_cases hc : rg.1 ≤ i ∧ i < rg.1 + rg.2
    · simp [hc]
    · simp only [if_neg hc]
      exact h

/-- A cell covered by some range ends up holding the loop body's value
for it. -/
theorem runWrites_covered (T : TrainedIntegrated) (S : ScoringSubs)
    (assigned : ℕ → ℕ → ℕ) (col : ℕ → ℕ → ℚ) (quantile : ℚ)
    (flags : BufferFlags) (i : ℕ) :
    ∀ (ranges : List (ℕ × ℕ)) (buf : ℕ → Option CellOutput),
      (∃ rg ∈ ranges, rg.1 ≤ i ∧ i < rg.1 + rg.2) →
      ranges.foldl
        (fun b rg => writeRange T S assigned col quantile flags rg b) buf i =
        some (perCell T S assigned col quantile flags i)
  | [], _, h => by simp at h
  | rg :: rest, buf, h => by
    rw [List.foldl_cons]
    by_cases hc : rg.1 ≤ i ∧ i < rg.1 + rg.2
    · refine runWrites_preserve T S assigned col quantile flags i rest _ ?_
      unfold writeRange
      simp [hc]
    · rcases h with ⟨rg', hrg', hcov⟩
      rcases List.mem_cons.mp hrg' with hrg' | hrg'
      · exact absurd (hrg' ▸ hcov) hc
      · exact runWrites_covered T S assigned col quantile flags i rest _
          ⟨rg', hrg', hcov⟩

/-- **C2.**  Running the classification with any family of worker ranges
covering the cells (as `tatami::parallelize` produces for any thread
count) yields, cell for cell, exactly the buffers of the single-range
(one-thread) run: best labels, scores and deltas are identical. -/
theorem c2_thread_count_invariance (T : TrainedIntegrated)
    (S : ScoringSubs) (assigned : ℕ → ℕ → ℕ) (col : ℕ → ℕ → ℚ)
    (quantile : ℚ) (flags : BufferFlags) (ncol : ℕ)
    (ranges : List (ℕ × ℕ))
    (hcover : ∀ i, i < ncol → ∃ rg ∈ ranges, rg.1 ≤ i ∧ i < rg.1 + rg.2) :
    ∀ i, i < ncol →
      runPartition T S assigned col quantile flags ranges i =
        runPartition T S assigned col quantile flags [(0, ncol)] i := by
  intro i hi
  unfold runPartition
  rw [runWrites_covered T S assigned col quantile flags i ranges _ (hcover i hi)]
  rw [runWrites_covered T S assigned col quantile flags i [(0, ncol)] _
    ⟨(0, ncol), List.mem_singleton_self _, by omega⟩]

/-- **C2, witness.**  Splitting five cells into ranges `[0,2)` and
`[2,5)` (two workers) writes the same output at cell 3 as the
single-range run. -/
theorem c2_thread_count_invariance_witness :
    runPartition twoRefTrained trivialSubs (fun _ _ => 0) (fun _ _ => 0)
      (8 / 10) allOnFlags [(0, 2), (2, 3)] 3 =
      runPartition twoRefTrained trivialSubs (fun _ _ => 0) (fun _ _ => 0)
        (8 / 10) allOnFlags [(0, 5)] 3 :=
  c2_thread_count_invariance twoRefTrained trivialSubs (fun _ _ => 0)
    (fun _ _ => 0) (8 / 10) allOnFlags 5 [(0, 2), (2, 3)]
    (by decide) 3 (by decide)

end Singlepp
